import Mathlib

/-!
Shallow embedding of the message-expansion engine of the LLM-assistant
repository (`src/message.py`, together with the option parser and the
loader predicates of `src/loader.py`), and proofs settling the claims
about its specification.

Modelling conventions:
* Python strings are `List Char`.
* A Python exception escaping a function is `none` in an `Option` result.
* Effectful collaborators (the filesystem, the network loaders, PDF
  rasterisation) are abstracted into an `Env` record of functions; the
  engine's control flow over their results is embedded faithfully.
-/

/-- The character list of a string literal. -/
def chars (s : String) : List Char := s.data

/-! ### Python string primitives used by the source -/

/-- Python `str.split(sep)` for a one-character separator: splits on every
occurrence of `sep` and always returns at least one piece
(`''.split(sep) == ['']`). -/
def pySplit : List Char → Char → List (List Char)
  | [], _ => [[]]
  | c :: rest, sep =>
    if c = sep then [] :: pySplit rest sep
    else
      match pySplit rest sep with
      | h :: t => (c :: h) :: t
      | [] => [[c]]

/-- Python `str.split(sep, 1)` restricted to the case used by the source:
`none` when the separator does not occur (so a two-variable unpacking of
the result raises), otherwise the parts before and after the first
occurrence. -/
def splitFirst : List Char → Char → Option (List Char × List Char)
  | [], _ => none
  | c :: rest, sep =>
    if c = sep then some ([], rest)
    else (splitFirst rest sep).map (fun p => (c :: p.1, p.2))

/-- The characters Python `str.strip()` removes. -/
def isPySpace (c : Char) : Bool :=
  c = ' ' || c = '\t' || c = '\n' || c = '\r' || c = '\x0b' || c = '\x0c'

/-- Python `str.strip()`. -/
def pyStrip (s : List Char) : List Char :=
  ((s.dropWhile isPySpace).reverse.dropWhile isPySpace).reverse

/-- Value of a non-empty all-digit character list; `none` otherwise. -/
def digitsToNat : List Char → Option Nat
  | [] => none
  | ds =>
    if ds.all Char.isDigit then
      some (ds.foldl (fun a c => a * 10 + (c.toNat - 48)) 0)
    else none

/-- Python `int(s)` on a decimal string: surrounding whitespace is
stripped, an optional single sign is allowed, the rest must be digits.
(Underscore digit grouping is not modelled; no input of interest uses it.)
`none` models the `ValueError` raised on anything else. -/
def pyInt (s : List Char) : Option Int :=
  match pyStrip s with
  | '-' :: ds => (digitsToNat ds).map (fun n => -(n : Int))
  | '+' :: ds => (digitsToNat ds).map (fun n => (n : Int))
  | ds => (digitsToNat ds).map (fun n => (n : Int))

/-- Python `str.lower()` (ASCII case, which is all the source compares). -/
def lowerStr (s : List Char) : List Char := s.map Char.toLower

/-- `os.path.basename`: everything after the last `/`. -/
def basename (p : List Char) : List Char :=
  ((p.reverse).takeWhile (fun c => c ≠ '/')).reverse

/-- The extension component of `os.path.splitext`: the suffix of the
basename starting at its last dot, provided some character before that
dot within the basename is not itself a dot (so dotfiles such as
`.png` have no extension); otherwise empty. -/
def splitextExt (p : List Char) : List Char :=
  let rb := (basename p).reverse
  let after := rb.takeWhile (fun c => c ≠ '.')
  match rb.dropWhile (fun c => c ≠ '.') with
  | _ :: before => if before.any (fun c => c ≠ '.') then '.' :: after.reverse else []
  | [] => []

/-! ### The message segmenter (`MessageExpander._separate_message`)

The source scans the message with `re.finditer` for the non-greedy
pattern of a brace-delimited token.  A match starting at a given `\x7b`
succeeds exactly when a `\x7d` follows it with no newline in between
(`.` does not match a newline), and the match extends to the first such
`\x7d`; scanning then continues after the match.  `takeBody` and
`findFirstMatch` embed one such scan step, and `separate_message` the
whole loop. -/

/-- A segment of the message: literal text, or the body (delimiters
stripped) of a matched placeholder token. -/
inductive Segment
  | literal (t : List Char)
  | placeholder (body : List Char)
deriving DecidableEq

/-- Attempt to complete a placeholder match whose opening brace has just
been consumed: take characters up to the first `\x7d`, failing on a
newline or the end of input. -/
def takeBody : List Char → Option (List Char × List Char)
  | [] => none
  | c :: rest =>
    if c = '\x7d' then some ([], rest)
    else if c = '\n' then none
    else
      match takeBody rest with
      | some (b, r) => some (c :: b, r)
      | none => none

/-- The leftmost match of the placeholder pattern: `some (pre, body, rest)`
when the input is `pre ++ '\x7b' :: body ++ '\x7d' :: rest` with no
earlier match inside `pre`. -/
def findFirstMatch : List Char → Option (List Char × List Char × List Char)
  | [] => none
  | c :: rest =>
    if c = '\x7b' then
      match takeBody rest with
      | some (b, r) => some ([], b, r)
      | none =>
        match findFirstMatch rest with
        | some (p, b, r) => some (c :: p, b, r)
        | none => none
    else
      match findFirstMatch rest with
      | some (p, b, r) => some (c :: p, b, r)
      | none => none

theorem takeBody_eq {s b r : List Char} (h : takeBody s = some (b, r)) :
    s = b ++ '\x7d' :: r := by
  induction s generalizing b r with
  | nil => simp [takeBody] at h
  | cons c rest ih =>
    simp only [takeBody] at h
    by_cases hc : c = '\x7d'
    · simp [hc] at h
      obtain ⟨hb, hr⟩ := h
      subst hb; subst hr; simp [hc]
    · by_cases hn : c = '\n'
      · simp [hc, hn] at h
      · simp [hc, hn] at h
        rcases hb : takeBody rest with _ | ⟨b', r'⟩
        · rw [hb] at h; simp at h
        · rw [hb] at h
          simp at h
          obtain ⟨hb1, hr1⟩ := h
          subst hb1; subst hr1
          simpa using congrArg (c :: ·) (ih hb)

theorem findFirstMatch_eq {s p b r : List Char}
    (h : findFirstMatch s = some (p, b, r)) :
    s = p ++ '\x7b' :: b ++ '\x7d' :: r := by
  induction s generalizing p b r with
  | nil => simp [findFirstMatch] at h
  | cons c rest ih =>
    simp only [findFirstMatch] at h
    by_cases hc : c = '\x7b'
    · simp only [hc, if_pos rfl] at h
      rcases htb : takeBody rest with _ | ⟨b', r'⟩
      · rw [htb] at h
        rcases hf : findFirstMatch rest with _ | ⟨p', b'', r''⟩
        · rw [hf] at h; simp at h
        · rw [hf] at h
          simp at h
          obtain ⟨hp, hb, hr⟩ := h
          subst hp; subst hb; subst hr
          simpa [hc] using congrArg (c :: ·) (ih hf)
      · rw [htb] at h
        simp at h
        obtain ⟨hp, hb, hr⟩ := h
        subst hp; subst hb; subst hr
        simpa [hc] using congrArg (c :: ·) (takeBody_eq htb)
    · simp only [hc, if_neg hc] at h
      rcases hf : findFirstMatch rest with _ | ⟨p', b'', r''⟩
      · rw [hf] at h; simp at h
      · rw [hf] at h
        simp at h
        obtain ⟨hp, hb, hr⟩ := h
        subst hp; subst hb; subst hr
        simpa using congrArg (c :: ·) (ih hf)

theorem findFirstMatch_rest_length {s p b r : List Char}
    (h : findFirstMatch s = some (p, b, r)) : r.length < s.length := by
  have := findFirstMatch_eq h
  subst this
  simp
  omega

/-- Structural worker for `separate_message`.  The fuel strictly exceeds
the remaining input length at every call (each match consumes at least
the two delimiters), so the fuel-exhausted arm is never reached. -/
def separateAux : Nat → List Char → List Segment
  | 0, _ => []
  | fuel + 1, s =>
    match findFirstMatch s with
    | none => if s = [] then [] else [Segment.literal s]
    | some (pre, body, rest) =>
      (if pre = [] then [] else [Segment.literal pre]) ++
        Segment.placeholder body :: separateAux fuel rest

/-- `MessageExpander._separate_message`: literal text before each match,
the raw match (as its body), the remainder handled recursively; trailing
text only when non-empty, and the empty-prefix literal is skipped. -/
def separate_message (s : List Char) : List Segment :=
  separateAux (s.length + 1) s

theorem separateAux_congr :
    ∀ (f f' : Nat) (s : List Char), s.length < f → s.length < f' →
      separateAux f s = separateAux f' s := by
  intro f
  induction f with
  | zero => intro f' s h; omega
  | succ f ih =>
    intro f' s h h'
    cases f' with
    | zero => omega
    | succ f'' =>
      simp only [separateAux]
      rcases hm : findFirstMatch s with _ | ⟨pre, body, rest⟩
      · rfl
      · have hlen := findFirstMatch_rest_length hm
        dsimp only
        rw [ih f'' rest (by omega) (by omega)]

/-- The recursion equation of the segmenter. -/
theorem separate_message_eq (s : List Char) :
    separate_message s =
      match findFirstMatch s with
      | none => if s = [] then [] else [Segment.literal s]
      | some (pre, body, rest) =>
        (if pre = [] then [] else [Segment.literal pre]) ++
          Segment.placeholder body :: separate_message rest := by
  show separateAux (s.length + 1) s = _
  simp only [separateAux]
  rcases hm : findFirstMatch s with _ | ⟨pre, body, rest⟩
  · rfl
  · have hlen := findFirstMatch_rest_length hm
    dsimp only
    rw [separateAux_congr s.length (rest.length + 1) rest (by omega) (by omega)]
    rfl

/-- The original text a segment stands for: literal text itself, the raw
placeholder including its delimiters for a placeholder segment. -/
def segRaw : Segment → List Char
  | Segment.literal t => t
  | Segment.placeholder body => '\x7b' :: body ++ ['\x7d']

/-- Concatenation of the original texts of a segment list. -/
def joinSegs (l : List Segment) : List Char := (l.map segRaw).flatten

theorem joinSegs_nil : joinSegs [] = [] := rfl

theorem joinSegs_append (a b : List Segment) :
    joinSegs (a ++ b) = joinSegs a ++ joinSegs b := by
  simp [joinSegs]

theorem joinSegs_cons (x : Segment) (l : List Segment) :
    joinSegs (x :: l) = segRaw x ++ joinSegs l := by
  simp [joinSegs]

theorem separate_message_roundtrip (s : List Char) :
    joinSegs (separate_message s) = s := by
  rw [separate_message_eq]
  split
  · split
    · rename_i hs; subst hs; rfl
    · simp [joinSegs, segRaw]
  · rename_i pre body rest hm
    have hs := findFirstMatch_eq hm
    have ih := separate_message_roundtrip rest
    by_cases hpre : pre = []
    · subst hpre
      rw [if_pos rfl, List.nil_append, joinSegs_cons, ih, hs]
      simp [segRaw]
    · rw [if_neg hpre, joinSegs_append, joinSegs_cons, joinSegs_cons, ih, hs]
      simp [joinSegs, segRaw]
termination_by s.length
decreasing_by exact findFirstMatch_rest_length (by assumption)

/-! ### The placeholder parser (`MessageExpander._parse_placeholder`)

The source first tests membership of the option separator; with it
present it unpacks the *full* split into exactly two variables, so a body
containing two or more separators raises a `ValueError`, as does an
option with no `=`. -/

/-- One `key=value` option: split on the first `=` (raising — `none` —
when there is none), both sides stripped. -/
def parse_option (opt : List Char) : Option (List Char × List Char) :=
  match splitFirst opt '=' with
  | some (k, v) => some (pyStrip k, pyStrip v)
  | none => none

/-- The option part: split on `;`, each piece parsed as `key=value`.
Successive assignments into the Python dict are modelled by keeping the
pairs in order; lookups take the last occurrence of a key. -/
def parse_options (optionsStr : List Char) : Option (List (List Char × List Char)) :=
  (pySplit optionsStr ';').mapM parse_option

/-- `dict.get` over the modelled option dict: the last binding of the
key, if any. -/
def dictGet (l : List (List Char × List Char)) (k : List Char) : Option (List Char) :=
  ((l.filter (fun p => decide (p.1 = k))).getLast?).map Prod.snd

/-- `MessageExpander._parse_placeholder`.  Note: with no `|` the body is
returned unstripped; with a `|` the full split must have exactly two
pieces (`path, options_str = placeholder_str.split('|')`), and the path
is stripped. -/
def parse_placeholder (body : List Char) :
    Option (List Char × List (List Char × List Char)) :=
  if '|' ∈ body then
    match pySplit body '|' with
    | [path, optionsStr] => (parse_options optionsStr).map (fun opts => (pyStrip path, opts))
    | _ => none
  else some (body, [])

/-! ### Page-range parsing

Two near-duplicate implementations exist in the repository:
`MessageExpander._parse_pages` in `src/message.py` (used by the engine;
1-based, no validation) and `LoaderOptionParser._parse_pages` in
`src/loader.py` (standalone CLI; converts to 0-based and rejects page
numbers below 1).  Both accumulate into a Python `set`, modelled here as
a duplicate-free list of members (iteration order of a Python set is
unobservable in the results, which are always sorted), and both end with
`sorted`, modelled by insertion sort. -/

/-- Add one element to a modelled set. -/
def setInsert (l : List Int) (n : Int) : List Int :=
  if n ∈ l then l else n :: l

/-- `set.update` / elementwise union. -/
def setUnion (l m : List Int) : List Int := m.foldl setInsert l

/-- The members of Python `range(s, e + 1)`, i.e. the integers from `s`
to `e` inclusive. -/
def intRangeAux : Nat → Int → List Int
  | 0, _ => []
  | n + 1, s => s :: intRangeAux n (s + 1)

def intRange (s e : Int) : List Int := intRangeAux (e + 1 - s).toNat s

/-- The pages denoted by one comma-separated part: an inclusive
`start-end` range (`range(start, end + 1)`) when it contains a `-`
— whose split must have exactly two integer pieces — else a single
integer. -/
def pagePartSet (part : List Char) : Option (List Int) :=
  if '-' ∈ part then
    match pySplit part '-' with
    | [a, b] =>
      match pyInt a, pyInt b with
      | some s, some e => some (intRange s e)
      | _, _ => none
    | _ => none
  else (pyInt part).map (fun n => [n])

/-- The set union of the pages of all comma-separated parts, built up in
iteration order (an unparsable part raises immediately). -/
def specified_pages (pages : List Char) : Option (List Int) :=
  (pySplit pages ',').foldlM
    (fun acc part => (pagePartSet part).map (fun s => setUnion acc s)) []

/-- `MessageExpander._parse_pages` (src/message.py): `sorted(set)` of the
specified pages, with no validation of any kind. -/
def parse_pages (pages : List Char) : Option (List Int) :=
  (specified_pages pages).map (fun l => l.insertionSort (· ≤ ·))

/-- `LoaderOptionParser._parse_pages` (src/loader.py): converts the set to
zero-indexed numbers, raises `ValueError` if any is negative (i.e. any
specified page was below 1), else returns them sorted. -/
def loader_parse_pages (pages : List Char) : Option (List Int) :=
  match specified_pages pages with
  | none => none
  | some l =>
    let l1 := l.map (fun n => n - 1)
    if l1.any (fun n => decide (n < 0)) then none
    else some (l1.insertionSort (· ≤ ·))

/-! ### Content blocks, loaders and the environment -/

/-- One element of `content_list`: the `'type': 'text'` dict or the
`'type': 'image_url'` dict (whose payload is the full data-URI string). -/
inductive Block
  | text (t : List Char)
  | imageUrl (url : List Char)
deriving DecidableEq

def Block.isText : Block → Bool
  | Block.text _ => true
  | Block.imageUrl _ => false

def Block.isImage : Block → Bool
  | Block.text _ => false
  | Block.imageUrl _ => true

/-- A loaded document: `metadata['title']` (absent = `KeyError` on
access, hence `Option`) and `page_content`. -/
structure PyDoc where
  metaTitle : Option (List Char)
  page_content : List Char

/-- A registered loader: `is_target_path` and `load`, each of which may
raise (`none`). -/
structure PyLoader where
  isTarget : List Char → Option Bool
  load : List Char → Option PyDoc

/-- The effectful collaborators of one `expand_message` call:
the loader list built in `__init__`, `os.path.exists`, reading a file as
text (`_append_file_content`), reading a file's bytes already
base64-encoded (`encode_image`), and rasterising a PDF into the
base64-encoded JPEG of each page in page order
(`pdf2image.convert_from_path` plus the per-page encoding). -/
structure Env where
  loaders : List PyLoader
  pathExists : List Char → Bool
  readTextFile : List Char → Option (List Char)
  readBinaryBase64 : List Char → Option (List Char)
  pdfPagesBase64 : List Char → Option (List (List Char))

/-- The loader loop of `expand_message`: first loader whose
`is_target_path` answers true; `some none` when every loader answered
false; `none` when a predicate raised. -/
def findLoader : List PyLoader → List Char → Option (Option PyLoader)
  | [], _ => some none
  | ld :: rest, path =>
    match ld.isTarget path with
    | none => none
    | some true => some (some ld)
    | some false => findLoader rest path

/-- `MessageExpander._append_text_content`: merge into a trailing text
block with a newline, else append a fresh text block. -/
def append_text_content (cl : List Block) (content : List Char) : List Block :=
  match cl.getLast? with
  | some (Block.text t) => cl.dropLast ++ [Block.text (t ++ '\n' :: content)]
  | _ => cl ++ [Block.text content]

/-- `MessageExpander._append_file_content`. -/
def append_file_content (env : Env) (cl : List Block) (title path : List Char) :
    Option (List Block) :=
  match env.readTextFile path with
  | none => none
  | some fc =>
    let fc' := if title ≠ [] then
        chars "### " ++ title ++ chars " ###\n\x60\x60\x60\n" ++ fc ++ chars "\n\x60\x60\x60\n"
      else fc
    some (append_text_content cl fc')

/-- `MessageExpander._append_image_content`.  The data-URI type is
`splitext(path)[1].lstrip('.')` — the extension as written, with only
leading dots removed and **no** lowercasing. -/
def append_image_content (env : Env) (cl : List Block) (title path : List Char) :
    Option (List Block) :=
  let cl1 := if title ≠ [] then
      append_text_content cl (chars "### " ++ title ++ chars " ###\n")
    else cl
  match env.readBinaryBase64 path with
  | none => none
  | some b64 =>
    let imageType := (splitextExt path).dropWhile (fun c => c = '.')
    some (cl1 ++ [Block.imageUrl
      (chars "data:image/" ++ imageType ++ chars ";base64," ++ b64)])

/-- The page filter of `_append_pdf_content`: skip when `page_numbers`
is truthy (a non-`None`, non-empty list) and does not contain the page. -/
def keepPage : Option (List Int) → Int → Bool
  | none, _ => true
  | some l, page => if l = [] then true else decide (page ∈ l)

/-- `MessageExpander._append_pdf_content`: optional heading, then one
`image_url` block (`data:image/jpg;...`) per rasterised page kept by the
`pages` option. -/
def append_pdf_content (env : Env) (cl : List Block) (title path : List Char)
    (options : List (List Char × List Char)) : Option (List Block) :=
  let cl1 := if title ≠ [] then
      append_text_content cl (chars "### " ++ title ++ chars " ###\n")
    else cl
  let pagesOption := dictGet options (chars "pages")
  match (match pagesOption with
         | some v => if v = [] then some none else (parse_pages v).map some
         | none => some none : Option (Option (List Int))) with
  | none => none
  | some pageNumbers =>
    match env.pdfPagesBase64 path with
    | none => none
    | some pages =>
      let kept := (pages.enum.filter
        (fun p => keepPage pageNumbers ((p.1 : Int) + 1))).map Prod.snd
      some (cl1 ++ kept.map
        (fun b => Block.imageUrl (chars "data:image/jpg;base64," ++ b)))

/-- Title resolution in the loader branch: the `title` option when
truthy, else `doc.metadata['title']` (which may raise `KeyError`). -/
def resolveTitle (title0 : Option (List Char)) (doc : PyDoc) : Option (List Char) :=
  match title0 with
  | some v => if v = [] then doc.metaTitle else some v
  | none => doc.metaTitle

/-- Title resolution in the local-file branch: the `title` option when
truthy, else `os.path.basename(path)`. -/
def localTitle (title0 : Option (List Char)) (path : List Char) : List Char :=
  match title0 with
  | some v => if v = [] then basename path else v
  | none => basename path

/-- The image-extension set of `MessageExpander.IMAGE_EXTENSIONS`. -/
def IMAGE_EXTENSIONS : List (List Char) :=
  [chars ".png", chars ".jpg", chars ".jpeg", chars ".gif"]

/-- The body of the per-segment loop of `expand_message`.  A literal
segment (one that does not re-match the placeholder pattern) is appended
as text.  A placeholder segment is parsed; then the first matching
loader is used, else an existing local path is dispatched on its
lowercased extension, else the raw segment text is appended verbatim. -/
def expand_segment (env : Env) (cl : List Block) : Segment → Option (List Block)
  | Segment.literal t => some (append_text_content cl t)
  | Segment.placeholder body =>
    match parse_placeholder body with
    | none => none
    | some (path, options) =>
      let title0 := dictGet options (chars "title")
      match findLoader env.loaders path with
      | none => none
      | some (some ld) =>
        match ld.load path with
        | none => none
        | some doc =>
          match resolveTitle title0 doc with
          | none => none
          | some title =>
            some (append_text_content cl
              (chars "### " ++ title ++ chars " ###\n" ++ doc.page_content))
      | some none =>
        if env.pathExists path then
          let title := localTitle title0 path
          let ext := lowerStr (splitextExt path)
          if ext ∈ IMAGE_EXTENSIONS then append_image_content env cl title path
          else if ext = chars ".pdf" then append_pdf_content env cl title path options
          else append_file_content env cl title path
        else some (append_text_content cl ('\x7b' :: body ++ ['\x7d']))

/-- The accumulated `content_list` of one `expand_message` call. -/
def expand_blocks (env : Env) (msg : List Char) : Option (List Block) :=
  (separate_message msg).foldlM (expand_segment env) []

/-- The returned `HumanMessage` content: a bare string, or a block list. -/
inductive PyMessage
  | plain (t : List Char)
  | blocks (cl : List Block)
deriving DecidableEq

/-- `MessageExpander.expand_message`: the block list, collapsed to a bare
string exactly when it is a single text block. -/
def expand_message (env : Env) (msg : List Char) : Option PyMessage :=
  (expand_blocks env msg).map fun cl =>
    match cl with
    | [Block.text t] => PyMessage.plain t
    | _ => PyMessage.blocks cl

/-! ### The loader predicates of `src/loader.py` -/

/-- `ConfluencePageLoader.is_target_path`: `url.startswith(self.base_url)`.
With the environment variable absent, `base_url` is `None` and
`startswith(None)` raises a `TypeError` (`none`). -/
def confluence_is_target_path (baseUrl : Option (List Char)) (url : List Char) :
    Option Bool :=
  match baseUrl with
  | none => none
  | some b => some (b.isPrefixOf url)

/-- A `ConfluencePageLoader` instance; the network-backed `load` is
abstracted as a function. -/
def ConfluencePageLoaderOf (baseUrl : Option (List Char))
    (loadFn : List Char → Option PyDoc) : PyLoader :=
  { isTarget := confluence_is_target_path baseUrl, load := loadFn }

/-- A character admissible in a URL scheme after the first. -/
def schemeChar (c : Char) : Bool :=
  c.isAlpha || c.isDigit || c = '+' || c = '-' || c = '.'

/-- The scheme extracted by `urllib.parse.urlparse`: the non-empty prefix
before the first `:` when it starts with a letter and consists of scheme
characters, lowercased; otherwise empty. -/
def url_scheme (u : List Char) : List Char :=
  match splitFirst u ':' with
  | some (pre, _) =>
    if pre ≠ [] ∧ (pre.headD 'a').isAlpha = true ∧ pre.all schemeChar = true then
      lowerStr pre
    else []
  | none => []

/-- `WebPageLoader.is_target_path`: the parsed scheme is http or https. -/
def web_is_target_path (path : List Char) : Option Bool :=
  some (decide (url_scheme path ∈ [chars "http", chars "https"]))

/-- A `WebPageLoader` instance with its network-backed `load` abstracted. -/
def WebPageLoaderOf (loadFn : List Char → Option PyDoc) : PyLoader :=
  { isTarget := web_is_target_path, load := loadFn }

/-! ### Utility lemmas -/

theorem pySplit_ne_nil (s : List Char) (sep : Char) : pySplit s sep ≠ [] := by
  cases s with
  | nil => simp [pySplit]
  | cons c rest =>
    simp only [pySplit]
    by_cases hc : c = sep
    · simp [hc]
    · simp only [hc, if_neg hc]
      rcases h : pySplit rest sep with _ | ⟨hd, tl⟩
      · simp
      · simp

theorem pySplit_of_not_mem {s : List Char} {sep : Char} (h : sep ∉ s) :
    pySplit s sep = [s] := by
  induction s with
  | nil => rfl
  | cons c rest ih =>
    have hc : c ≠ sep := fun e => h (e ▸ List.mem_cons_self c rest)
    have hrest : sep ∉ rest := fun m => h (List.mem_cons_of_mem c m)
    simp only [pySplit, if_neg hc, ih hrest]

theorem pySplit_append {p o : List Char} {sep : Char} (hp : sep ∉ p) :
    pySplit (p ++ sep :: o) sep = p :: pySplit o sep := by
  induction p with
  | nil => simp [pySplit]
  | cons c rest ih =>
    have hc : c ≠ sep := fun e => hp (e ▸ List.mem_cons_self c rest)
    have hrest : sep ∉ rest := fun m => hp (List.mem_cons_of_mem c m)
    simp only [List.cons_append, pySplit, if_neg hc]
    rw [show rest.append (sep :: o) = rest ++ sep :: o from rfl, ih hrest]

theorem pySplit_length (s : List Char) (sep : Char) :
    (pySplit s sep).length = s.count sep + 1 := by
  induction s with
  | nil => simp [pySplit]
  | cons c rest ih =>
    simp only [pySplit]
    by_cases hc : c = sep
    · subst hc
      simp [ih, List.count_cons]
    · simp only [if_neg hc]
      rcases h : pySplit rest sep with _ | ⟨hd, tl⟩
      · exact absurd h (pySplit_ne_nil rest sep)
      · rw [h] at ih
        simp only [List.length_cons] at ih ⊢
        rw [List.count_cons]
        simp [hc, ih]

theorem splitFirst_of_not_mem {s : List Char} {sep : Char} (h : sep ∉ s) :
    splitFirst s sep = none := by
  induction s with
  | nil => rfl
  | cons c rest ih =>
    have hc : c ≠ sep := fun e => h (e ▸ List.mem_cons_self c rest)
    have hrest : sep ∉ rest := fun m => h (List.mem_cons_of_mem c m)
    simp [splitFirst, if_neg hc, ih hrest]

theorem foldlM_none_of_mem {α β : Type} (f : β → α → Option β) {l : List α} {x : α}
    (hx : x ∈ l) (hf : ∀ acc, f acc x = none) : ∀ a, l.foldlM f a = none := by
  induction l with
  | nil => cases hx
  | cons hd tl ih =>
    intro a
    rcases List.mem_cons.mp hx with heq | hmem
    · subst heq
      rw [List.foldlM_cons, hf a]
      rfl
    · rw [List.foldlM_cons]
      rcases hhd : f a hd with _ | a'
      · rfl
      · simpa using ih hmem a'

theorem foldlM_invariant {α β : Type} (P : β → Prop) (f : β → α → Option β) :
    ∀ (l : List α) (a r : β),
      (∀ acc x acc', x ∈ l → P acc → f acc x = some acc' → P acc') →
      P a → l.foldlM f a = some r → P r := by
  intro l
  induction l with
  | nil =>
    intro a r _ hPa h
    rw [List.foldlM_nil] at h
    cases h
    exact hPa
  | cons hd tl ih =>
    intro a r hstep hPa h
    rw [List.foldlM_cons] at h
    rcases hhd : f a hd with _ | a'
    · rw [hhd] at h; cases h
    · rw [hhd] at h
      have ha' : P a' := hstep a hd a' (List.mem_cons_self _ _) hPa hhd
      exact ih a' r (fun acc x acc' hx => hstep acc x acc' (List.mem_cons_of_mem _ hx))
        ha' (by simpa using h)

theorem foldlM_result_ne_nil {α γ : Type} (f : List γ → α → Option (List γ))
    (hstep : ∀ acc x acc', f acc x = some acc' → acc' ≠ []) :
    ∀ (l : List α) (a r : List γ), l ≠ [] → l.foldlM f a = some r → r ≠ [] := by
  intro l
  induction l with
  | nil => intro a r h; cases h rfl
  | cons hd tl ih =>
    intro a r _ h
    rw [List.foldlM_cons] at h
    rcases hhd : f a hd with _ | a'
    · rw [hhd] at h; cases h
    · rw [hhd] at h
      have h' : tl.foldlM f a' = some r := by simpa using h
      cases tl with
      | nil =>
        rw [List.foldlM_nil] at h'
        cases h'
        exact hstep a hd r hhd
      | cons x xs => exact ih a' r (by simp) h'

theorem mapM_eq_none_of_mem {α β : Type} (f : α → Option β) {l : List α} {x : α}
    (hx : x ∈ l) (hf : f x = none) : l.mapM f = none := by
  induction l with
  | nil => cases hx
  | cons hd tl ih =>
    rcases List.mem_cons.mp hx with heq | hmem
    · subst heq
      rw [List.mapM_cons, hf]
      rfl
    · rw [List.mapM_cons]
      rcases hhd : f hd with _ | y
      · rfl
      · rw [ih hmem]
        rfl

/-! ### Coalescing lemmas -/

/-- The adjacency relation the assembler maintains: at least one of two
neighbouring blocks is not a text block. -/
def blockAdjOk (a b : Block) : Prop := a.isText = false ∨ b.isText = false

/-- No two adjacent blocks of the list are both text blocks. -/
def noAdjacentText (l : List Block) : Prop := List.Chain' blockAdjOk l

theorem noAdjacentText_nil : noAdjacentText [] := List.chain'_nil

theorem noAdj_append_single {l : List Block} {b : Block} (hl : noAdjacentText l)
    (hb : ∀ x, l.getLast? = some x → blockAdjOk x b) :
    noAdjacentText (l ++ [b]) := by
  rw [noAdjacentText, List.chain'_append]
  refine ⟨hl, List.chain'_singleton b, ?_⟩
  intro x hx y hy
  simp only [List.head?_cons, Option.mem_def, Option.some.injEq] at hy
  subst hy
  exact hb x hx

theorem noAdj_dropLast_text {l : List Block} {t : List Char}
    (hl : noAdjacentText l) (h : l.getLast? = some (Block.text t)) (u : List Char) :
    noAdjacentText (l.dropLast ++ [Block.text u]) := by
  have hne : l ≠ [] := by
    intro e; subst e; simp at h
  have hdecomp : l.dropLast ++ [l.getLast hne] = l := List.dropLast_append_getLast hne
  have hgl : l.getLast hne = Block.text t := by
    have h2 : l.getLast? = some (l.getLast hne) := List.getLast?_eq_getLast l hne
    rw [h2] at h
    exact Option.some.inj h
  rw [← hdecomp, noAdjacentText, List.chain'_append] at hl
  obtain ⟨h1, _, h3⟩ := hl
  refine noAdj_append_single h1 ?_
  intro x hx
  have hedge := h3 x hx (l.getLast hne) (by simp)
  rw [hgl] at hedge
  rcases hedge with hh | hh
  · exact Or.inl hh
  · simp [Block.isText] at hh

theorem noAdj_append_nontext {l l2 : List Block} (hl : noAdjacentText l)
    (h2 : ∀ b ∈ l2, b.isText = false) : noAdjacentText (l ++ l2) := by
  rw [noAdjacentText, List.chain'_append]
  refine ⟨hl, ?_, ?_⟩
  · clear hl
    induction l2 with
    | nil => exact List.chain'_nil
    | cons b bs ih =>
      rw [List.chain'_cons']
      refine ⟨fun y _ => Or.inl (h2 b (List.mem_cons_self _ _)), ?_⟩
      exact ih (fun x hx => h2 x (List.mem_cons_of_mem _ hx))
  · intro x _ y hy
    exact Or.inr (h2 y (List.mem_of_mem_head? hy))

theorem noAdj_append_text {cl : List Block} (hcl : noAdjacentText cl) (t : List Char) :
    noAdjacentText (append_text_content cl t) := by
  rcases h : cl.getLast? with _ | b
  · simp only [append_text_content, h]
    refine noAdj_append_single hcl ?_
    intro x hx
    rw [h] at hx
    cases hx
  · cases b with
    | text t0 =>
      simp only [append_text_content, h]
      exact noAdj_dropLast_text hcl h _
    | imageUrl u =>
      simp only [append_text_content, h]
      refine noAdj_append_single hcl ?_
      intro x hx
      rw [h] at hx
      cases hx
      exact Or.inl rfl

theorem append_text_content_ne_nil (cl : List Block) (t : List Char) :
    append_text_content cl t ≠ [] := by
  rcases h : cl.getLast? with _ | b
  · simp [append_text_content, h]
  · cases b with
    | text t0 => simp [append_text_content, h]
    | imageUrl u => simp [append_text_content, h]

/-- The merge rule of `_append_text_content` spelled out: a trailing text
block absorbs the new text joined by one newline. -/
theorem append_text_content_merge {cl : List Block} {t : List Char}
    (h : cl.getLast? = some (Block.text t)) (content : List Char) :
    append_text_content cl content =
      cl.dropLast ++ [Block.text (t ++ '\n' :: content)] := by
  simp only [append_text_content, h]

theorem mem_append_text_content {b : Block} {cl : List Block} {t : List Char}
    (h : b ∈ append_text_content cl t) : b ∈ cl ∨ ∃ u, b = Block.text u := by
  rcases hg : cl.getLast? with _ | b0
  · simp only [append_text_content, hg] at h
    rcases List.mem_append.mp h with hm | hm
    · exact Or.inl hm
    · simp at hm
      exact Or.inr ⟨t, hm⟩
  · cases b0 with
    | text t0 =>
      simp only [append_text_content, hg] at h
      rcases List.mem_append.mp h with hm | hm
      · exact Or.inl ((List.dropLast_sublist cl).subset hm)
      · simp at hm
        exact Or.inr ⟨_, hm⟩
    | imageUrl u =>
      simp only [append_text_content, hg] at h
      rcases List.mem_append.mp h with hm | hm
      · exact Or.inl hm
      · simp at hm
        exact Or.inr ⟨t, hm⟩

/-! ### Shape lemmas for the assembler steps -/

theorem append_image_content_elim {env : Env} {cl : List Block} {title path : List Char}
    {cl' : List Block} (h : append_image_content env cl title path = some cl') :
    ∃ b64, env.readBinaryBase64 path = some b64 ∧
      cl' = (if title ≠ [] then
              append_text_content cl (chars "### " ++ title ++ chars " ###\n")
            else cl)
        ++ [Block.imageUrl (chars "data:image/"
              ++ (splitextExt path).dropWhile (fun c => c = '.')
              ++ chars ";base64," ++ b64)] := by
  rcases hb : env.readBinaryBase64 path with _ | b64
  · simp [append_image_content, hb] at h
  · refine ⟨b64, rfl, ?_⟩
    simp only [append_image_content, hb] at h
    exact (Option.some.inj h).symm

theorem append_pdf_content_elim {env : Env} {cl : List Block} {title path : List Char}
    {options : List (List Char × List Char)} {cl' : List Block}
    (h : append_pdf_content env cl title path options = some cl') :
    ∃ (pageNumbers : Option (List Int)) (pages : List (List Char)),
      env.pdfPagesBase64 path = some pages ∧
      cl' = (if title ≠ [] then
              append_text_content cl (chars "### " ++ title ++ chars " ###\n")
            else cl)
        ++ ((pages.enum.filter
              (fun p => keepPage pageNumbers ((p.1 : Int) + 1))).map Prod.snd).map
            (fun b => Block.imageUrl (chars "data:image/jpg;base64," ++ b)) := by
  simp only [append_pdf_content] at h
  rcases hpn : (match dictGet options (chars "pages") with
               | some v => if v = [] then some none else (parse_pages v).map some
               | none => some none : Option (Option (List Int))) with _ | pageNumbers
  · rw [hpn] at h; cases h
  · rw [hpn] at h
    rcases hpages : env.pdfPagesBase64 path with _ | pages
    · rw [hpages] at h; cases h
    · rw [hpages] at h
      exact ⟨pageNumbers, pages, rfl, (Option.some.inj h).symm⟩

theorem append_file_content_elim {env : Env} {cl : List Block} {title path : List Char}
    {cl' : List Block} (h : append_file_content env cl title path = some cl') :
    ∃ t, cl' = append_text_content cl t := by
  rcases hf : env.readTextFile path with _ | fc
  · simp [append_file_content, hf] at h
  · simp only [append_file_content, hf] at h
    exact ⟨_, (Option.some.inj h).symm⟩

theorem splitextExt_eq_nil_of_basename {p : List Char} (h : basename p = []) :
    splitextExt p = [] := by
  simp [splitextExt, h]

theorem basename_ne_nil_of_ext {p : List Char} (h : splitextExt p ≠ []) :
    basename p ≠ [] :=
  fun hb => h (splitextExt_eq_nil_of_basename hb)

theorem localTitle_ne_nil {t0 : Option (List Char)} {path : List Char}
    (h : basename path ≠ []) : localTitle t0 path ≠ [] := by
  cases t0 with
  | none => simpa [localTitle]
  | some v =>
    by_cases hv : v = [] <;> simp [localTitle, hv, h]

theorem splitextExt_ne_nil_of_pdf {path : List Char}
    (h : lowerStr (splitextExt path) = chars ".pdf") : splitextExt path ≠ [] := by
  intro he
  rw [he] at h
  simp [lowerStr, chars] at h

/-- Every successful per-segment step either appends text through the
coalescing helper, or extends (a text-appended form of) the list with
non-text blocks, at least one side being non-empty. -/
theorem expand_segment_elim {env : Env} {cl : List Block} {seg : Segment}
    {cl' : List Block} (h : expand_segment env cl seg = some cl') :
    (∃ t, cl' = append_text_content cl t) ∨
    (∃ base l2, cl' = base ++ l2 ∧
      (base = cl ∨ ∃ t, base = append_text_content cl t) ∧
      (∀ b ∈ l2, b.isText = false) ∧ (base ≠ [] ∨ l2 ≠ [])) := by
  cases seg with
  | literal t =>
    simp only [expand_segment] at h
    exact Or.inl ⟨t, (Option.some.inj h).symm⟩
  | placeholder body =>
    simp only [expand_segment] at h
    rcases hp : parse_placeholder body with _ | ⟨path, options⟩
    · rw [hp] at h; cases h
    · simp only [hp] at h
      rcases hfl : findLoader env.loaders path with _ | (_ | ld)
      · rw [hfl] at h; cases h
      · simp only [hfl] at h
        by_cases hex : env.pathExists path = true
        · rw [if_pos hex] at h
          by_cases him : lowerStr (splitextExt path) ∈ IMAGE_EXTENSIONS
          · rw [if_pos him] at h
            obtain ⟨b64, _, hcl'⟩ := append_image_content_elim h
            refine Or.inr ⟨_, _, hcl', ?_, ?_, Or.inr (by simp)⟩
            · by_cases htt : localTitle (dictGet options (chars "title")) path ≠ []
              · exact Or.inr ⟨_, by rw [if_pos htt]⟩
              · exact Or.inl (by rw [if_neg htt])
            · intro b hb
              simp only [List.mem_singleton] at hb
              subst hb
              rfl
          · rw [if_neg him] at h
            by_cases hpdf : lowerStr (splitextExt path) = chars ".pdf"
            · rw [if_pos hpdf] at h
              obtain ⟨pn, pages, _, hcl'⟩ := append_pdf_content_elim h
              have htitle : localTitle (dictGet options (chars "title")) path ≠ [] :=
                localTitle_ne_nil (basename_ne_nil_of_ext (splitextExt_ne_nil_of_pdf hpdf))
              rw [if_pos htitle] at hcl'
              refine Or.inr ⟨_, _, hcl', Or.inr ⟨_, rfl⟩, ?_,
                Or.inl (append_text_content_ne_nil _ _)⟩
              intro b hb
              simp only [List.mem_map] at hb
              obtain ⟨x, _, hx⟩ := hb
              subst hx
              rfl
            · rw [if_neg hpdf] at h
              obtain ⟨t, hcl'⟩ := append_file_content_elim h
              exact Or.inl ⟨t, hcl'⟩
        · rw [if_neg hex] at h
          exact Or.inl ⟨_, (Option.some.inj h).symm⟩
      · simp only [hfl] at h
        rcases hload : ld.load path with _ | doc
        · rw [hload] at h; cases h
        · simp only [hload] at h
          rcases ht : resolveTitle (dictGet options (chars "title")) doc with _ | title
          · rw [ht] at h; cases h
          · simp only [ht] at h
            exact Or.inl ⟨_, (Option.some.inj h).symm⟩

theorem expand_segment_noAdj {env : Env} {cl : List Block} {seg : Segment}
    {cl' : List Block} (h : expand_segment env cl seg = some cl')
    (hcl : noAdjacentText cl) : noAdjacentText cl' := by
  rcases expand_segment_elim h with ⟨t, rfl⟩ | ⟨base, l2, rfl, hbase, hl2, _⟩
  · exact noAdj_append_text hcl t
  · have hbadj : noAdjacentText base := by
      rcases hbase with rfl | ⟨t, rfl⟩
      · exact hcl
      · exact noAdj_append_text hcl t
    exact noAdj_append_nontext hbadj hl2

theorem expand_segment_ne_nil {env : Env} {cl : List Block} {seg : Segment}
    {cl' : List Block} (h : expand_segment env cl seg = some cl') : cl' ≠ [] := by
  rcases expand_segment_elim h with ⟨t, rfl⟩ | ⟨base, l2, rfl, _, _, hne⟩
  · exact append_text_content_ne_nil cl t
  · rcases hne with hb | hl
    · intro he
      exact hb (List.append_eq_nil.mp he).1
    · intro he
      exact hl (List.append_eq_nil.mp he).2

theorem expand_blocks_noAdj {env : Env} {msg : List Char} {cl : List Block}
    (h : expand_blocks env msg = some cl) : noAdjacentText cl := by
  exact foldlM_invariant noAdjacentText (expand_segment env) (separate_message msg) [] cl
    (fun acc seg acc' _ hP hstep => expand_segment_noAdj hstep hP)
    noAdjacentText_nil h

theorem expand_blocks_ne_nil {env : Env} {msg : List Char} {cl : List Block}
    (hmsg : msg ≠ []) (h : expand_blocks env msg = some cl) : cl ≠ [] := by
  have hsegs : separate_message msg ≠ [] := by
    rw [separate_message_eq]
    rcases hm : findFirstMatch msg with _ | ⟨pre, body, rest⟩
    · simp [hmsg]
    · by_cases hpre : pre = [] <;> simp [hpre]
  exact foldlM_result_ne_nil (expand_segment env)
    (fun acc seg acc' hstep => expand_segment_ne_nil hstep)
    (separate_message msg) [] cl hsegs h

/-! ### Page-range parsing lemmas -/

theorem mem_setInsert {l : List Int} {n x : Int} :
    x ∈ setInsert l n ↔ x ∈ l ∨ x = n := by
  unfold setInsert
  by_cases h : n ∈ l
  · rw [if_pos h]
    constructor
    · exact Or.inl
    · rintro (hx | rfl)
      · exact hx
      · exact h
  · rw [if_neg h]
    simp [List.mem_cons, or_comm]

theorem nodup_setInsert {l : List Int} (hl : l.Nodup) (n : Int) :
    (setInsert l n).Nodup := by
  unfold setInsert
  by_cases h : n ∈ l
  · rwa [if_pos h]
  · rw [if_neg h]
    exact List.nodup_cons.mpr ⟨h, hl⟩

theorem mem_setUnion {l m : List Int} {x : Int} :
    x ∈ setUnion l m ↔ x ∈ l ∨ x ∈ m := by
  unfold setUnion
  induction m generalizing l with
  | nil => simp
  | cons a m ih =>
    rw [List.foldl_cons, ih, mem_setInsert, List.mem_cons]
    tauto

theorem nodup_setUnion {l m : List Int} (hl : l.Nodup) : (setUnion l m).Nodup := by
  unfold setUnion
  induction m generalizing l with
  | nil => exact hl
  | cons a m ih => exact ih (nodup_setInsert hl a)

theorem mem_intRangeAux {n : Nat} {s x : Int} :
    x ∈ intRangeAux n s ↔ s ≤ x ∧ x < s + n := by
  induction n generalizing s with
  | zero => simp [intRangeAux]
  | succ n ih =>
    simp only [intRangeAux, List.mem_cons, ih]
    push_cast
    omega

theorem mem_intRange {s e x : Int} : x ∈ intRange s e ↔ s ≤ x ∧ x ≤ e := by
  unfold intRange
  rw [mem_intRangeAux]
  omega

theorem specified_pages_fold_elim :
    ∀ (parts : List (List Char)) (acc F : List Int),
      parts.foldlM (fun acc part => (pagePartSet part).map (fun s => setUnion acc s)) acc
        = some F →
      (∀ part ∈ parts, ∃ S, pagePartSet part = some S) ∧
      (∀ x, x ∈ F ↔ x ∈ acc ∨ ∃ part ∈ parts, ∃ S, pagePartSet part = some S ∧ x ∈ S) ∧
      (acc.Nodup → F.Nodup) := by
  intro parts
  induction parts with
  | nil =>
    intro acc F h
    rw [List.foldlM_nil] at h
    cases h
    exact ⟨fun part hp => absurd hp (List.not_mem_nil part), fun x => by simp, id⟩
  | cons hd tl ih =>
    intro acc F h
    rw [List.foldlM_cons] at h
    rcases hhd : pagePartSet hd with _ | S
    · rw [hhd] at h; cases h
    · rw [hhd] at h
      have h' : tl.foldlM (fun acc part => (pagePartSet part).map (fun s => setUnion acc s))
          (setUnion acc S) = some F := by simpa using h
      obtain ⟨hall, hmem, hnd⟩ := ih (setUnion acc S) F h'
      refine ⟨?_, ?_, ?_⟩
      · intro part hp
        rcases List.mem_cons.mp hp with heq | hm
        · exact ⟨S, heq ▸ hhd⟩
        · exact hall part hm
      · intro x
        rw [hmem x, mem_setUnion]
        constructor
        · rintro ((hx | hx) | ⟨part, hp, S', hS', hx⟩)
          · exact Or.inl hx
          · exact Or.inr ⟨hd, List.mem_cons_self _ _, S, hhd, hx⟩
          · exact Or.inr ⟨part, List.mem_cons_of_mem _ hp, S', hS', hx⟩
        · rintro (hx | ⟨part, hp, S', hS', hx⟩)
          · exact Or.inl (Or.inl hx)
          · rcases List.mem_cons.mp hp with heq | hm
            · subst heq
              rw [hhd] at hS'
              cases hS'
              exact Or.inl (Or.inr hx)
            · exact Or.inr ⟨part, hm, S', hS', hx⟩
      · intro hacc
        exact hnd (nodup_setUnion hacc)

theorem specified_pages_elim {pages : List Char} {F : List Int}
    (h : specified_pages pages = some F) :
    (∀ part ∈ pySplit pages ',', ∃ S, pagePartSet part = some S) ∧
    (∀ x, x ∈ F ↔ ∃ part ∈ pySplit pages ',', ∃ S, pagePartSet part = some S ∧ x ∈ S) ∧
    F.Nodup := by
  obtain ⟨hall, hmem, hnd⟩ := specified_pages_fold_elim (pySplit pages ',') [] F h
  refine ⟨hall, fun x => ?_, hnd List.nodup_nil⟩
  rw [hmem x]
  simp

/-! ### Concrete environments used by witnesses and counterexamples -/

/-- No loaders, empty filesystem. -/
def envEmpty : Env :=
  { loaders := []
    pathExists := fun _ => false
    readTextFile := fun _ => none
    readBinaryBase64 := fun _ => none
    pdfPagesBase64 := fun _ => none }

/-- A loader whose predicate declines every locator. -/
def declineLoader : PyLoader := { isTarget := fun _ => some false, load := fun _ => none }

/-- One declining loader, empty filesystem. -/
def envDecline : Env :=
  { loaders := [declineLoader]
    pathExists := fun _ => false
    readTextFile := fun _ => none
    readBinaryBase64 := fun _ => none
    pdfPagesBase64 := fun _ => none }

/-- A filesystem holding one image file named `a.PNG`. -/
def envPng : Env :=
  { loaders := []
    pathExists := fun p => decide (p = chars "a.PNG")
    readTextFile := fun _ => none
    readBinaryBase64 := fun p => if p = chars "a.PNG" then some (chars "QUJD") else none
    pdfPagesBase64 := fun _ => none }

/-- The engine's two loaders as built by `__init__` with all three
credential environment variables absent. -/
def envNoCreds : Env :=
  { loaders := [ConfluencePageLoaderOf none (fun _ => none), WebPageLoaderOf (fun _ => none)]
    pathExists := fun _ => false
    readTextFile := fun _ => none
    readBinaryBase64 := fun _ => none
    pdfPagesBase64 := fun _ => none }

/-- Whether an `expand_message` result is a bare-string message. -/
def isBare : Option PyMessage → Bool
  | some (PyMessage.plain _) => true
  | _ => false

/-! ### Claim C1 -/

/-- Claim C1 counterexample: for the message `{foo.txt|badoption}` —
whose single placeholder has an option with no `=` — `expand_message`
raises a `ValueError` (result `none`) instead of degrading the
placeholder to literal text and continuing. -/
theorem claim_C1_counterexample :
    expand_message envEmpty (chars "\x7bfoo.txt|badoption\x7d") = none := by decide

/-- Claim C1 (amended): a placeholder body whose option part contains an
option with no `=` makes `_parse_placeholder` raise `ValueError`, which
propagates out of `expand_message` and aborts the whole expansion — no
verbatim fallback occurs and the rest of the message is not processed. -/
theorem claim_C1_amended (env : Env) (msg body p o opt : List Char)
    (hseg : Segment.placeholder body ∈ separate_message msg)
    (hsplit : pySplit body '|' = [p, o])
    (hopt : opt ∈ pySplit o ';') (hne : '=' ∉ opt) :
    expand_message env msg = none := by
  have hpipe : '|' ∈ body := by
    by_contra hn
    rw [pySplit_of_not_mem hn] at hsplit
    simp at hsplit
  have hoptnone : parse_option opt = none := by
    simp [parse_option, splitFirst_of_not_mem hne]
  have hopts : parse_options o = none := mapM_eq_none_of_mem parse_option hopt hoptnone
  have hpp : parse_placeholder body = none := by
    simp only [parse_placeholder, if_pos hpipe, hsplit, hopts]
    rfl
  have hstep : ∀ acc, expand_segment env acc (Segment.placeholder body) = none := by
    intro acc
    simp [expand_segment, hpp]
  have hblocks : expand_blocks env msg = none :=
    foldlM_none_of_mem (expand_segment env) hseg hstep []
  simp [expand_message, hblocks]

/-- Claim C1 witness: the malformed placeholder in the middle of a
message aborts the whole call. -/
theorem claim_C1_witness :
    expand_message envEmpty (chars "a \x7bfoo.txt|badoption\x7d b") = none :=
  claim_C1_amended envEmpty (chars "a \x7bfoo.txt|badoption\x7d b")
    (chars "foo.txt|badoption") (chars "foo.txt") (chars "badoption")
    (chars "badoption") (by decide) (by decide) (by decide) (by decide)

/-! ### Claim C2 -/

/-- Claim C2: concatenating, in order, each literal segment's text and
each placeholder segment's raw text (delimiters included) reproduces the
original message exactly; a non-empty message with zero placeholder
matches yields exactly one literal segment equal to the whole message,
and the empty message yields an empty segment sequence. -/
theorem claim_C2 (s : List Char) :
    joinSegs (separate_message s) = s ∧
    (findFirstMatch s = none → s ≠ [] → separate_message s = [Segment.literal s]) ∧
    separate_message [] = [] := by
  refine ⟨separate_message_roundtrip s, ?_, by decide⟩
  intro hm hs
  rw [separate_message_eq]
  simp [hm, hs]

/-- Claim C2 witness: round trip and single-segment shape at concrete
messages. -/
theorem claim_C2_witness :
    joinSegs (separate_message (chars "see \x7ba.txt\x7d now")) = chars "see \x7ba.txt\x7d now" ∧
    separate_message (chars "plain") = [Segment.literal (chars "plain")] :=
  ⟨(claim_C2 (chars "see \x7ba.txt\x7d now")).1,
   (claim_C2 (chars "plain")).2.1 (by decide) (by decide)⟩

/-! ### Claim C8 -/

/-- Claim C8 counterexample: the body `a|t=x|y` has a `|` inside an
option value; the claim says the options part becomes `t=x|y` and parsing
succeeds, but `split('|')` yields three pieces and the two-variable
unpacking raises a `ValueError` (`none`). -/
theorem claim_C8_counterexample :
    parse_placeholder (chars "a|t=x|y") = none := by decide

/-- Claim C8 (amended): for a body with exactly one `|`, the parser
splits there into locator and options, splits the options on `;`, splits
each pair at its first `=`, and trims the locator and every key and
value; but a body with two or more `|` raises a `ValueError` instead of
keeping later `|` characters in the options part. -/
theorem claim_C8_amended :
    (∀ (p o : List Char), '|' ∉ p → '|' ∉ o →
      parse_placeholder (p ++ '|' :: o) =
        (parse_options o).map (fun opts => (pyStrip p, opts))) ∧
    (∀ (opt k v : List Char), splitFirst opt '=' = some (k, v) →
      parse_option opt = some (pyStrip k, pyStrip v)) ∧
    (∀ body : List Char, 2 ≤ body.count '|' → parse_placeholder body = none) := by
  refine ⟨?_, ?_, ?_⟩
  · intro p o hp ho
    have hmem : '|' ∈ p ++ '|' :: o := List.mem_append_right _ (List.mem_cons_self _ _)
    simp only [parse_placeholder, if_pos hmem, pySplit_append hp, pySplit_of_not_mem ho]
  · intro opt k v h
    simp [parse_option, h]
  · intro body hcount
    have hmem : '|' ∈ body := by
      by_contra hn
      rw [List.count_eq_zero_of_not_mem hn] at hcount
      omega
    have hlen := pySplit_length body '|'
    simp only [parse_placeholder, if_pos hmem]
    rcases hsp : pySplit body '|' with _ | ⟨a, tl⟩
    · exact absurd hsp (pySplit_ne_nil body '|')
    · rcases tl with _ | ⟨b, tl2⟩
      · rfl
      · rcases tl2 with _ | ⟨c, tl3⟩
        · rw [hsp] at hlen
          simp at hlen
          omega
        · rfl

/-- Claim C8 witness: a well-formed single-`|` body parses with trimmed
keys and values, and a two-`|` body raises. -/
theorem claim_C8_witness :
    parse_placeholder (chars "a.txt" ++ '|' :: chars " t = v ;p=1") =
      some (chars "a.txt", [(chars "t", chars "v"), (chars "p", chars "1")]) ∧
    parse_placeholder (chars "x|y|z") = none := by
  constructor
  · rw [claim_C8_amended.1 (chars "a.txt") (chars " t = v ;p=1") (by decide) (by decide)]
    decide
  · exact claim_C8_amended.2.2 (chars "x|y|z") (by decide)

/-! ### Claim C3 -/

/-- Claim C3 counterexample: the engine's page-range parser
(`MessageExpander._parse_pages`) accepts `0-2` and returns `[0, 1, 2]` —
it raises no error although derived page numbers are below 1. -/
theorem claim_C3_counterexample :
    parse_pages (chars "0-2") = some [0, 1, 2] := by decide

/-- Claim C3 (amended): both page-range parsers return the deduplicated,
ascending union of the pages specified by the comma-separated parts, but
only `LoaderOptionParser._parse_pages` in `src/loader.py` (which also
shifts to 0-based numbers) rejects page numbers below 1; the engine's
`MessageExpander._parse_pages` performs no validation and silently
returns out-of-range pages such as those of `0-2`. -/
theorem claim_C3_amended :
    (∀ (s : List Char) (l : List Int), parse_pages s = some l →
      List.Sorted (· < ·) l ∧
      (∀ x, x ∈ l ↔ ∃ part ∈ pySplit s ',', ∃ S, pagePartSet part = some S ∧ x ∈ S)) ∧
    (∀ (s : List Char) (l : List Int), loader_parse_pages s = some l →
      List.Sorted (· < ·) l ∧
      (∀ x, x ∈ l ↔ ∃ part ∈ pySplit s ',', ∃ S, pagePartSet part = some S ∧ x + 1 ∈ S) ∧
      (∀ x ∈ l, 0 ≤ x)) ∧
    loader_parse_pages (chars "0-2") = none := by
  refine ⟨?_, ?_, by decide⟩
  · intro s l h
    rcases hF : specified_pages s with _ | F
    · simp [parse_pages, hF] at h
    · simp only [parse_pages, hF, Option.map_some'] at h
      obtain ⟨hall, hmem, hnd⟩ := specified_pages_elim hF
      have hperm : List.Perm (F.insertionSort (· ≤ ·)) F := List.perm_insertionSort (· ≤ ·) F
      have hsorted : List.Sorted (· ≤ ·) (F.insertionSort (· ≤ ·)) :=
        List.sorted_insertionSort (· ≤ ·) F
      have hlnd : (F.insertionSort (· ≤ ·)).Nodup := hperm.nodup_iff.mpr hnd
      obtain rfl : l = F.insertionSort (· ≤ ·) := (Option.some.inj h).symm
      refine ⟨hsorted.lt_of_le hlnd, fun x => ?_⟩
      rw [hperm.mem_iff]
      exact hmem x
  · intro s l h
    rcases hF : specified_pages s with _ | F
    · simp [loader_parse_pages, hF] at h
    · simp only [loader_parse_pages, hF] at h
      by_cases hany : (F.map (fun n => n - 1)).any (fun n => decide (n < 0)) = true
      · rw [if_pos hany] at h
        cases h
      · rw [if_neg hany] at h
        obtain ⟨hall, hmem, hnd⟩ := specified_pages_elim hF
        have hinj : Function.Injective (fun n : Int => n - 1) := by
          intro a b hab
          simpa using hab
        have hnd1 : (F.map (fun n => n - 1)).Nodup := hnd.map hinj
        have hperm : List.Perm ((F.map (fun n => n - 1)).insertionSort (· ≤ ·))
            (F.map (fun n => n - 1)) :=
          List.perm_insertionSort (· ≤ ·) _
        have hsorted : List.Sorted (· ≤ ·) ((F.map (fun n => n - 1)).insertionSort (· ≤ ·)) :=
          List.sorted_insertionSort (· ≤ ·) _
        have hlnd := hperm.nodup_iff.mpr hnd1
        cases h
        refine ⟨hsorted.lt_of_le hlnd, fun x => ?_, ?_⟩
        · rw [hperm.mem_iff, List.mem_map]
          constructor
          · rintro ⟨m, hm, hmx⟩
            have : m = x + 1 := by omega
            subst this
            exact (hmem (x + 1)).mp hm
          · intro hx
            exact ⟨x + 1, (hmem (x + 1)).mpr hx, by omega⟩
        · intro x hx
          rw [hperm.mem_iff] at hx
          by_contra hneg
          exact hany (List.any_eq_true.mpr ⟨x, hx, by simp only [decide_eq_true_eq]; omega⟩)

/-- Claim C3 witness: both parsers at the specification's example
`1,3-5,9` produce strictly ascending (hence deduplicated) lists. -/
theorem claim_C3_witness :
    List.Sorted (· < ·) ([1, 3, 4, 5, 9] : List Int) ∧
    List.Sorted (· < ·) ([0, 2, 3, 4, 8] : List Int) :=
  ⟨(claim_C3_amended.1 (chars "1,3-5,9") [1, 3, 4, 5, 9] (by decide)).1,
   (claim_C3_amended.2.1 (chars "1,3-5,9") [0, 2, 3, 4, 8] (by decide)).1⟩

/-! ### Claim C4 -/

theorem findLoader_of_all_false {ls : List PyLoader} {path : List Char}
    (h : ∀ ld ∈ ls, ld.isTarget path = some false) : findLoader ls path = some none := by
  induction ls with
  | nil => rfl
  | cons ld rest ih =>
    simp only [findLoader]
    rw [h ld (List.mem_cons_self _ _)]
    exact ih (fun l hl => h l (List.mem_cons_of_mem _ hl))

/-- The per-segment step on a parsed placeholder that no loader accepts
and that is not an existing path: the raw segment text, delimiters
included, goes back in as literal text. -/
theorem expand_segment_unresolved {env : Env} {cl : List Block}
    {body path : List Char} {options : List (List Char × List Char)}
    (hparse : parse_placeholder body = some (path, options))
    (hloaders : ∀ ld ∈ env.loaders, ld.isTarget path = some false)
    (hex : env.pathExists path = false) :
    expand_segment env cl (Segment.placeholder body) =
      some (append_text_content cl ('\x7b' :: body ++ ['\x7d'])) := by
  simp only [expand_segment, hparse, findLoader_of_all_false hloaders]
  rw [if_neg (by simp [hex])]

theorem takeBody_clean {b r : List Char} (h1 : '\x7d' ∉ b) (h2 : '\n' ∉ b) :
    takeBody (b ++ '\x7d' :: r) = some (b, r) := by
  induction b with
  | nil => simp [takeBody]
  | cons c cs ih =>
    have hc1 : c ≠ '\x7d' := fun e => h1 (e ▸ List.mem_cons_self c cs)
    have hc2 : c ≠ '\n' := fun e => h2 (e ▸ List.mem_cons_self c cs)
    have hcs1 : '\x7d' ∉ cs := fun m => h1 (List.mem_cons_of_mem c m)
    have hcs2 : '\n' ∉ cs := fun m => h2 (List.mem_cons_of_mem c m)
    simp only [List.cons_append, takeBody, if_neg hc1, if_neg hc2, List.append_eq]
    rw [ih hcs1 hcs2]

/-- A message consisting of exactly one clean placeholder segments into
just that placeholder. -/
theorem separate_single {body : List Char} (h1 : '\x7d' ∉ body) (h2 : '\n' ∉ body) :
    separate_message ('\x7b' :: body ++ ['\x7d']) = [Segment.placeholder body] := by
  have hffm : findFirstMatch ('\x7b' :: body ++ ['\x7d']) = some ([], body, []) := by
    have ht : takeBody (body ++ ['\x7d']) = some (body, []) := takeBody_clean h1 h2
    simp [findFirstMatch, ht]
  have h0 : separate_message [] = [] := by decide
  rw [separate_message_eq, hffm]
  simp [h0]

/-- Claim C4: a placeholder whose body parses, whose locator every
registered loader declines, and which is not an existing local path is
appended as its raw text, delimiters intact, through the text-coalescing
helper, and the step does not raise; consequently a message holding just
such a placeholder expands, without raising, to the bare string equal to
the raw placeholder text. -/
theorem claim_C4 :
    (∀ (env : Env) (cl : List Block) (body path : List Char)
       (options : List (List Char × List Char)),
      parse_placeholder body = some (path, options) →
      (∀ ld ∈ env.loaders, ld.isTarget path = some false) →
      env.pathExists path = false →
      expand_segment env cl (Segment.placeholder body) =
        some (append_text_content cl ('\x7b' :: body ++ ['\x7d']))) ∧
    (∀ (env : Env) (body path : List Char) (options : List (List Char × List Char)),
      parse_placeholder body = some (path, options) →
      (∀ ld ∈ env.loaders, ld.isTarget path = some false) →
      env.pathExists path = false →
      '\x7d' ∉ body → '\n' ∉ body →
      expand_message env ('\x7b' :: body ++ ['\x7d']) =
        some (PyMessage.plain ('\x7b' :: body ++ ['\x7d']))) := by
  refine ⟨fun env cl body path options hparse hloaders hex =>
    expand_segment_unresolved hparse hloaders hex, ?_⟩
  intro env body path options hparse hloaders hex h1 h2
  have hseg := separate_single h1 h2
  have hstep : expand_segment env [] (Segment.placeholder body) =
      some (append_text_content [] ('\x7b' :: body ++ ['\x7d'])) :=
    expand_segment_unresolved hparse hloaders hex
  have happ : append_text_content [] ('\x7b' :: body ++ ['\x7d']) =
      [Block.text ('\x7b' :: body ++ ['\x7d'])] := rfl
  unfold expand_message expand_blocks
  rw [hseg, List.foldlM_cons, hstep, happ]
  rfl

/-- Claim C4 witness: the specification's example `{not/a/real/path}`
degrades to itself, as a bare string, under a declining loader. -/
theorem claim_C4_witness :
    expand_message envDecline ('\x7b' :: chars "not/a/real/path" ++ ['\x7d']) =
      some (PyMessage.plain ('\x7b' :: chars "not/a/real/path" ++ ['\x7d'])) :=
  claim_C4.2 envDecline (chars "not/a/real/path") (chars "not/a/real/path") []
    (by decide) (by decide) (by decide) (by decide) (by decide)

/-! ### Claim C5 -/

theorem findLoader_first {ls : List PyLoader} {path : List Char} :
    ∀ (i : Nat) (hi : i < ls.length),
      (∀ (j : Nat) (hj : j < i), (ls.get ⟨j, lt_trans hj hi⟩).isTarget path = some false) →
      (ls.get ⟨i, hi⟩).isTarget path = some true →
      findLoader ls path = some (some (ls.get ⟨i, hi⟩)) := by
  induction ls with
  | nil => intro i hi; simp at hi
  | cons ld rest ih =>
    intro i hi hprev htrue
    cases i with
    | zero =>
      simp only [findLoader]
      rw [show (ld :: rest).get ⟨0, hi⟩ = ld from rfl] at htrue
      rw [htrue]
      rfl
    | succ k =>
      have h0 : ld.isTarget path = some false := hprev 0 (Nat.succ_pos k)
      simp only [findLoader]
      rw [h0]
      exact ih k (Nat.lt_of_succ_lt_succ hi)
        (fun j hj => hprev (j + 1) (Nat.succ_lt_succ hj)) htrue

/-- Claim C5: loader resolution walks the list in order and selects the
first loader whose predicate answers true, reaches the local-file
fallback exactly when every loader answers false, and, for a wiki-shaped
https URL accepted by both the wiki loader and the generic web loader,
selects the wiki loader registered before the web loader. -/
theorem claim_C5 :
    (∀ (ls : List PyLoader) (path : List Char) (i : Nat) (hi : i < ls.length),
      (∀ (j : Nat) (hj : j < i), (ls.get ⟨j, lt_trans hj hi⟩).isTarget path = some false) →
      (ls.get ⟨i, hi⟩).isTarget path = some true →
      findLoader ls path = some (some (ls.get ⟨i, hi⟩))) ∧
    (∀ (ls : List PyLoader) (path : List Char),
      (∀ ld ∈ ls, ld.isTarget path = some false) → findLoader ls path = some none) ∧
    (∀ cload wload : List Char → Option PyDoc,
      confluence_is_target_path (some (chars "https://wiki.example.com/wiki"))
          (chars "https://wiki.example.com/wiki/spaces/AB/pages/123/T") = some true ∧
      web_is_target_path (chars "https://wiki.example.com/wiki/spaces/AB/pages/123/T") =
          some true ∧
      findLoader
          [ConfluencePageLoaderOf (some (chars "https://wiki.example.com/wiki")) cload,
           WebPageLoaderOf wload]
          (chars "https://wiki.example.com/wiki/spaces/AB/pages/123/T") =
        some (some (ConfluencePageLoaderOf
          (some (chars "https://wiki.example.com/wiki")) cload))) := by
  refine ⟨fun ls path => findLoader_first, fun ls path => findLoader_of_all_false, ?_⟩
  intro cload wload
  refine ⟨by decide, by decide, ?_⟩
  simp only [findLoader, ConfluencePageLoaderOf]
  rw [show confluence_is_target_path (some (chars "https://wiki.example.com/wiki"))
      (chars "https://wiki.example.com/wiki/spaces/AB/pages/123/T") = some true by decide]

/-- Claim C5 witness: the first-match rule applied at index 0 of the
concrete two-loader registry yields the wiki loader. -/
theorem claim_C5_witness :
    findLoader
        [ConfluencePageLoaderOf (some (chars "https://wiki.example.com/wiki")) (fun _ => none),
         WebPageLoaderOf (fun _ => none)]
        (chars "https://wiki.example.com/wiki/spaces/AB/pages/123/T") =
      some (some (ConfluencePageLoaderOf
        (some (chars "https://wiki.example.com/wiki")) (fun _ => none))) :=
  claim_C5.1
    [ConfluencePageLoaderOf (some (chars "https://wiki.example.com/wiki")) (fun _ => none),
     WebPageLoaderOf (fun _ => none)]
    (chars "https://wiki.example.com/wiki/spaces/AB/pages/123/T") 0 (by decide)
    (fun j hj => absurd hj (Nat.not_lt_zero j)) (by decide)

/-! ### Claim C6 -/

/-- Claim C6: no two adjacent blocks of any assembled block sequence are
both text blocks; every per-segment step preserves that invariant, and
appending text while the last block is a text block merges the new text
into it joined by a single newline. -/
theorem claim_C6 :
    (∀ (env : Env) (msg : List Char) (cl : List Block),
      expand_blocks env msg = some cl → noAdjacentText cl) ∧
    (∀ (env : Env) (cl : List Block) (seg : Segment) (cl' : List Block),
      noAdjacentText cl → expand_segment env cl seg = some cl' → noAdjacentText cl') ∧
    (∀ (cl : List Block) (t content : List Char),
      cl.getLast? = some (Block.text t) →
      append_text_content cl content = cl.dropLast ++ [Block.text (t ++ '\n' :: content)]) :=
  ⟨fun _ _ _ h => expand_blocks_noAdj h,
   fun _ _ _ _ hP h => expand_segment_noAdj h hP,
   fun _ _ content h => append_text_content_merge h content⟩

/-- Claim C6 witness: the invariant at a concrete expansion, and the
newline merge at a concrete block list. -/
theorem claim_C6_witness :
    noAdjacentText [Block.text (chars "ab")] ∧
    append_text_content [Block.text (chars "x")] (chars "y") =
      [Block.text (chars "x" ++ '\n' :: chars "y")] :=
  ⟨claim_C6.1 envEmpty (chars "ab") [Block.text (chars "ab")] (by decide),
   claim_C6.2.2 [Block.text (chars "x")] (chars "x") (chars "y") (by decide)⟩

/-! ### Claim C7 -/

/-- Claim C7 counterexample: the empty message produces no image blocks,
yet `expand_message` returns the wrapped (empty) block sequence, not a
bare string. -/
theorem claim_C7_counterexample :
    expand_message envEmpty [] = some (PyMessage.blocks []) ∧
    isBare (expand_message envEmpty []) = false := by
  exact ⟨by decide, by decide⟩

/-- Claim C7 (amended): whenever the assembled sequence is exactly one
text block the result is the bare string, in every other case it is the
wrapped block sequence, and every *non-empty* message producing no image
blocks falls in the first case (the empty message produces the empty
sequence instead). -/
theorem claim_C7_amended (env : Env) (msg : List Char) (cl : List Block)
    (h : expand_blocks env msg = some cl) :
    (∀ t, cl = [Block.text t] → expand_message env msg = some (PyMessage.plain t)) ∧
    ((∀ t, cl ≠ [Block.text t]) → expand_message env msg = some (PyMessage.blocks cl)) ∧
    (msg ≠ [] → (∀ b ∈ cl, b.isImage = false) → ∃ t, cl = [Block.text t]) := by
  refine ⟨?_, ?_, ?_⟩
  · intro t hcl
    simp [expand_message, h, hcl]
  · intro hne
    rcases cl with _ | ⟨b, rest⟩
    · simp [expand_message, h]
    · rcases rest with _ | ⟨b2, rest2⟩
      · cases b with
        | text t => exact absurd rfl (hne t)
        | imageUrl u => simp [expand_message, h]
      · cases b <;> simp [expand_message, h]
  · intro hmsg himg
    have hnnil := expand_blocks_ne_nil hmsg h
    have hadj : List.Chain' blockAdjOk cl := expand_blocks_noAdj h
    rcases cl with _ | ⟨b, rest⟩
    · exact absurd rfl hnnil
    · rcases rest with _ | ⟨b2, rest2⟩
      · cases b with
        | text t => exact ⟨t, rfl⟩
        | imageUrl u =>
          have hb := himg (Block.imageUrl u) (List.mem_cons_self _ _)
          simp [Block.isImage] at hb
      · have hpair : blockAdjOk b b2 := (List.chain'_cons.mp hadj).1
        have hb : b.isText = true := by
          cases b with
          | text t => rfl
          | imageUrl u =>
            have := himg (Block.imageUrl u) (List.mem_cons_self _ _)
            simp [Block.isImage] at this
        have hb2 : b2.isText = true := by
          cases b2 with
          | text t => rfl
          | imageUrl u =>
            have := himg (Block.imageUrl u)
              (List.mem_cons_of_mem _ (List.mem_cons_self _ _))
            simp [Block.isImage] at this
        rcases hpair with hh | hh
        · rw [hb] at hh; cases hh
        · rw [hb2] at hh; cases hh

/-- Claim C7 witness: a concrete message with a single text block
collapses to a bare string. -/
theorem claim_C7_witness :
    expand_message envEmpty (chars "hi") = some (PyMessage.plain (chars "hi")) :=
  (claim_C7_amended envEmpty (chars "hi") [Block.text (chars "hi")] (by decide)).1
    (chars "hi") rfl

/-! ### Claim C9 -/

/-- Claim C9 counterexample: a local image named with the uppercase
extension `.PNG` is serialized as `data:image/PNG;...` — the extension is
not lowercased, contradicting the claimed `data:image/png;...`. -/
theorem claim_C9_counterexample :
    expand_message envPng (chars "\x7ba.PNG\x7d") =
      some (PyMessage.blocks [Block.text (chars "### a.PNG ###\n"),
        Block.imageUrl (chars "data:image/PNG;base64,QUJD")]) ∧
    chars "PNG" ≠ chars "png" := by
  exact ⟨by decide, by decide⟩

/-- Claim C9 (amended): a local image block's serialized form is
`data:image/<ext>;base64,<data>` where `<ext>` is the `splitext`
extension with leading dots stripped and its original case preserved
(no lowercasing), and every image block appended for a rasterized PDF
page uses `data:image/jpg;base64,<data>`. -/
theorem claim_C9_amended :
    (∀ (env : Env) (cl : List Block) (title path b64 : List Char),
      env.readBinaryBase64 path = some b64 →
      append_image_content env cl title path =
        some ((if title ≠ [] then
                append_text_content cl (chars "### " ++ title ++ chars " ###\n")
              else cl)
          ++ [Block.imageUrl (chars "data:image/"
                ++ (splitextExt path).dropWhile (fun c => c = '.')
                ++ chars ";base64," ++ b64)])) ∧
    (∀ (env : Env) (cl : List Block) (title path : List Char)
       (options : List (List Char × List Char)) (cl' : List Block),
      append_pdf_content env cl title path options = some cl' →
      ∀ b ∈ cl', b.isImage = true →
        b ∈ cl ∨ ∃ d, b = Block.imageUrl (chars "data:image/jpg;base64," ++ d)) := by
  constructor
  · intro env cl title path b64 h
    simp [append_image_content, h]
  · intro env cl title path options cl' h b hb hbi
    obtain ⟨pn, pages, _, hcl'⟩ := append_pdf_content_elim h
    subst hcl'
    rcases List.mem_append.mp hb with hm | hm
    · by_cases ht : title ≠ []
      · rw [if_pos ht] at hm
        rcases mem_append_text_content hm with hmc | ⟨u, rfl⟩
        · exact Or.inl hmc
        · simp [Block.isImage] at hbi
      · rw [if_neg ht] at hm
        exact Or.inl hm
    · simp only [List.mem_map] at hm
      obtain ⟨x, -, rfl⟩ := hm
      exact Or.inr ⟨x, rfl⟩

/-- Claim C9 witness: the amended serialization rule evaluated on the
uppercase-extension image. -/
theorem claim_C9_witness :
    append_image_content envPng [] (chars "a.PNG") (chars "a.PNG") =
      some [Block.text (chars "### a.PNG ###\n"),
        Block.imageUrl (chars "data:image/PNG;base64,QUJD")] := by
  rw [claim_C9_amended.1 envPng [] (chars "a.PNG") (chars "a.PNG") (chars "QUJD") (by decide)]
  decide

/-! ### Claim C10 -/

/-- Claim C10 counterexample: with the credentials absent the wiki
loader's `is_target_path` does not return false — it raises a
`TypeError` (`str.startswith(None)`), and the error propagates out of
`expand_message` during resolution. -/
theorem claim_C10_counterexample :
    confluence_is_target_path none (chars "https://example.com/x") = none ∧
    confluence_is_target_path none (chars "https://example.com/x") ≠ some false ∧
    expand_message envNoCreds (chars "\x7bhttps://example.com/x\x7d") = none := by
  exact ⟨rfl, by decide, by decide⟩

/-- Claim C10 (amended): with absent credentials the wiki loader matches
no locator, but by raising rather than by answering false: its predicate
raises a `TypeError` on every locator, and any message containing a
placeholder makes `expand_message` raise when that loader heads the
registry. -/
theorem claim_C10_amended :
    (∀ url : List Char, confluence_is_target_path none url = none) ∧
    (∀ (env : Env) (lf : List Char → Option PyDoc) (rest : List PyLoader)
       (msg body : List Char),
      env.loaders = ConfluencePageLoaderOf none lf :: rest →
      Segment.placeholder body ∈ separate_message msg →
      expand_message env msg = none) := by
  refine ⟨fun url => rfl, ?_⟩
  intro env lf rest msg body hload hseg
  have hstep : ∀ acc, expand_segment env acc (Segment.placeholder body) = none := by
    intro acc
    simp only [expand_segment]
    rcases hp : parse_placeholder body with _ | ⟨path, options⟩
    · rfl
    · simp only [hp]
      have hfl : findLoader env.loaders path = none := by
        rw [hload]
        rfl
      rw [hfl]
  have hblocks : expand_blocks env msg = none :=
    foldlM_none_of_mem (expand_segment env) hseg hstep []
  simp [expand_message, hblocks]

/-- Claim C10 witness: the credential-less registry aborts a concrete
message containing a web placeholder. -/
theorem claim_C10_witness :
    confluence_is_target_path none (chars "https://w.example/p") = none ∧
    expand_message envNoCreds (chars "see \x7bhttps://w.example/p\x7d") = none :=
  ⟨claim_C10_amended.1 (chars "https://w.example/p"),
   claim_C10_amended.2 envNoCreds (fun _ => none) [WebPageLoaderOf (fun _ => none)]
     (chars "see \x7bhttps://w.example/p\x7d") (chars "https://w.example/p")
     rfl (by decide)⟩
